import Mathlib

/-!
Shallow embedding of the IR core in `src/ast/hvm_lang.rs`: the term and
pattern data model, the definition-name registry, the textual renderer and
the variable substitution pass.  Rust's in-place `subst` is modelled as a
pure tree rebuild (the spec explicitly allows a functional rebuild); panics
(`todo!`, `unwrap`) are modelled by `Option`, with `none` standing for a
fatal failure.
-/

/- String literal constants used throughout the embedding. -/

def sStar : String := "*"
def sSpace : String := " "
def sLamSym : String := "λ"
def sDollar : String := "$"
def sLetKw : String := "let "
def sEqSep : String := " = "
def sSemi : String := "; "
def sDupKw : String := "dup "
def sIfKw : String := "if "
def sThenKw : String := " then "
def sElseKw : String := " else "
def sLPar : String := "("
def sRPar : String := ")"
def sLBrace : String := "\x7b"
def sRBrace : String := "\x7d"
def sNl : String := "\n"
def sNl2 : String := "\n\n"
def sUnder : String := "_"

def sOpAdd : String := "+"
def sOpSub : String := "-"
def sOpMul : String := "*"
def sOpDiv : String := "/"
def sOpMod : String := "%"
def sOpEq : String := "=="
def sOpNe : String := "!="
def sOpLt : String := "<"
def sOpGt : String := ">"
def sOpAnd : String := "&"
def sOpOr : String := "|"
def sOpXor : String := "^"
def sOpNot : String := "~"
def sOpLsh : String := "<<"
def sOpRsh : String := ">>"

/-- Rust `Name` is a newtype over a string. -/
abbrev Name := String

/-- Rust `DefId` is a newtype over a small unsigned integer. -/
abbrev DefId := Nat

/-- Rust `enum Op`: the closed enumeration of numeric operator tags. -/
inductive Op where
  | ADD | SUB | MUL | DIV | MOD | EQ | NE | LT | GT
  | AND | OR | XOR | NOT | LSH | RSH
deriving DecidableEq

/-- Rust `enum Term`: the expression IR (hvm_lang.rs lines 41-96). -/
inductive Term where
  | Lam : Option Name → Term → Term
  | Var : Name → Term
  | Chn : Name → Term → Term
  | Lnk : Name → Term
  | Let : Name → Term → Term → Term
  | Ref : DefId → Term
  | App : Term → Term → Term
  | If : Term → Term → Term → Term
  | Dup : Option Name → Option Name → Term → Term → Term
  | Sup : Term → Term → Term
  | Era : Term
  | Num : Nat → Term
  | Opx : Op → Term → Term → Term
deriving DecidableEq

/-- Rust `enum Pattern`: rule-head patterns (hvm_lang.rs lines 34-39). -/
inductive Pattern where
  | Ctr : Name → List Pattern → Pattern
  | Var : Option Name → Pattern
  | Num : Nat → Pattern

/-- Rust `struct DefNames`: the registry's bidirectional map is modelled as the
list of its (id, name) pairs in insertion order, plus the fresh-id counter. -/
structure DefNames where
  map : List (DefId × Name)
  id_count : Nat
deriving DecidableEq

/-- Rust `struct Rule`. -/
structure Rule where
  def_id : DefId
  pats : List Pattern
  body : Term

/-- Rust `struct Definition`. -/
structure Definition where
  def_id : DefId
  rules : List Rule

/-- Rust `struct DefinitionBook`. -/
structure DefinitionBook where
  def_names : DefNames
  defs : List Definition

/-- Rust `DefNames::new` / `Default`. -/
def DefNames.new : DefNames := ⟨[], 0⟩

/-- Rust `DefNames::name`: lookup by id (`get_by_left`). -/
def DefNames.name (d : DefNames) (i : DefId) : Option Name :=
  (d.map.find? (fun p => p.1 == i)).map (fun p => p.2)

/-- Rust `DefNames::def_id`: lookup by name (`get_by_right`). -/
def DefNames.def_id (d : DefNames) (n : Name) : Option DefId :=
  (d.map.find? (fun p => p.2 == n)).map (fun p => p.1)

/-- Rust `DefNames::contains_name`. -/
def DefNames.contains_name (d : DefNames) (n : Name) : Bool :=
  d.map.any (fun p => p.2 == n)

/-- Rust `DefNames::contains_def_id`. -/
def DefNames.contains_def_id (d : DefNames) (i : DefId) : Bool :=
  d.map.any (fun p => p.1 == i)

/-- Rust `DefNames::insert`: takes the next counter value as the fresh id and
increments the counter, then inserts the pair into the bimap; the bimap
insert reports `Overwritten::Neither` exactly when neither the id was
already a left key nor the name a right key, and any other outcome hits
`todo!` (a panic, modelled as `none`). -/
def DefNames.insert (d : DefNames) (n : Name) : Option (DefId × DefNames) :=
  let def_id := d.id_count
  if d.contains_def_id def_id || d.contains_name n then none
  else some (def_id, ⟨d.map ++ [(def_id, n)], def_id + 1⟩)

/-- Rust `Term::call`: folds the arguments onto the called term with `App`. -/
def Term.call (called : Term) (args : List Term) : Term :=
  args.foldl (fun acc arg => Term.App acc arg) called

/-- Rust `Term::subst` (hvm_lang.rs lines 202-245), as a pure rebuild.  The Rust
guard on `Dup` is `fst.as_ref().map_or(true, |f| f != from) && snd...`,
i.e. recurse into the continuation iff neither optional name is `Some from`. -/
def Term.subst : Term → Name → Term → Term
  | .Lam (some nam) bod, frm, toT =>
      if nam = frm then .Lam (some nam) bod else .Lam (some nam) (bod.subst frm toT)
  | .Lam none bod, frm, toT => .Lam none (bod.subst frm toT)
  | .Var nam, frm, toT => if nam = frm then toT else .Var nam
  | .Chn nam bod, frm, toT => .Chn nam (bod.subst frm toT)
  | .Lnk nam, _, _ => .Lnk nam
  | .Let nam val nxt, frm, toT =>
      .Let nam (val.subst frm toT) (if nam = frm then nxt else nxt.subst frm toT)
  | .If cond then_ els_, frm, toT =>
      .If (cond.subst frm toT) (then_.subst frm toT) (els_.subst frm toT)
  | .Ref i, _, _ => .Ref i
  | .App fn arg, frm, toT => .App (fn.subst frm toT) (arg.subst frm toT)
  | .Dup fst snd val nxt, frm, toT =>
      .Dup fst snd (val.subst frm toT)
        (if fst ≠ some frm ∧ snd ≠ some frm then nxt.subst frm toT else nxt)
  | .Sup fst snd, frm, toT => .Sup (fst.subst frm toT) (snd.subst frm toT)
  | .Era, _, _ => .Era
  | .Num v, _, _ => .Num v
  | .Opx op fst snd, frm, toT => .Opx op (fst.subst frm toT) (snd.subst frm toT)

/- Names used in concrete test terms. -/

def nX : String := "x"
def nY : String := "y"
def nH : String := "h"
def nT : String := "t"
def nF : String := "f"
def nA : String := "a"
def nB : String := "b"
def nMain : String := "main"
def nCons : String := "Cons"

mutual

/-- Rust `From<&Pattern> for Term` (hvm_lang.rs lines 274-282): pattern-to-term
elaboration. -/
def Term.ofPattern : Pattern → Term
  | .Ctr nam args => Term.call (Term.Var nam) (Term.ofPatternList args)
  | .Var (some nam) => Term.Var nam
  | .Var none => Term.Var sUnder
  | .Num n => Term.Num n

/-- Elaboration mapped over a pattern list (`args.iter().map(Term::from)`). -/
def Term.ofPatternList : List Pattern → List Term
  | [] => []
  | p :: ps => Term.ofPattern p :: Term.ofPatternList ps

end

theorem ofPatternList_eq_map (ps : List Pattern) :
    Term.ofPatternList ps = ps.map Term.ofPattern := by
  induction ps with
  | nil => rw [Term.ofPatternList, List.map_nil]
  | cons p ps ih => rw [Term.ofPatternList, List.map_cons, ih]

/-- Rust `Display for Op` (hvm_lang.rs lines 300-320). -/
def Op.toStr : Op → String
  | .ADD => sOpAdd
  | .SUB => sOpSub
  | .MUL => sOpMul
  | .DIV => sOpDiv
  | .MOD => sOpMod
  | .EQ => sOpEq
  | .NE => sOpNe
  | .LT => sOpLt
  | .GT => sOpGt
  | .AND => sOpAnd
  | .OR => sOpOr
  | .XOR => sOpXor
  | .NOT => sOpNot
  | .LSH => sOpLsh
  | .RSH => sOpRsh

mutual

/-- Rust `Display for Pattern` (hvm_lang.rs lines 290-298). -/
def Pattern.toStr : Pattern → String
  | .Ctr nam pats => sLPar ++ nam ++ Pattern.toStrArgs pats ++ sRPar
  | .Var (some nam) => nam
  | .Var none => sStar
  | .Num n => Nat.repr n

/-- Rust `pats.iter().map(|x| format!(" \x7bx\x7d")).join("")`: each sub-pattern
prefixed with a space, concatenated. -/
def Pattern.toStrArgs : List Pattern → String
  | [] => ""
  | p :: ps => sSpace ++ Pattern.toStr p ++ Pattern.toStrArgs ps

end

/-- Rust `Term::to_string` (hvm_lang.rs lines 160-195).  The `unwrap` on a
dangling `Ref` name is modelled by `Option` propagation: `none` is the
panic. -/
def Term.toStr : Term → DefNames → Option String
  | .Lam nam bod, d =>
      (bod.toStr d).map (fun sb => sLamSym ++ nam.getD sStar ++ sSpace ++ sb)
  | .Var nam, _ => some nam
  | .Chn nam bod, d =>
      (bod.toStr d).map (fun sb => sLamSym ++ sDollar ++ nam ++ sSpace ++ sb)
  | .Lnk nam, _ => some (sDollar ++ nam)
  | .Let nam val nxt, d =>
      (val.toStr d).bind (fun sv => (nxt.toStr d).map (fun sn =>
        sLetKw ++ nam ++ sEqSep ++ sv ++ sSemi ++ sn))
  | .Ref i, d => d.name i
  | .App fn arg, d =>
      (fn.toStr d).bind (fun sf => (arg.toStr d).map (fun sa =>
        sLPar ++ sf ++ sSpace ++ sa ++ sRPar))
  | .If cond then_ els_, d =>
      (cond.toStr d).bind (fun sc => (then_.toStr d).bind (fun st =>
        (els_.toStr d).map (fun se =>
          sIfKw ++ sc ++ sThenKw ++ st ++ sElseKw ++ se)))
  | .Dup fst snd val nxt, d =>
      (val.toStr d).bind (fun sv => (nxt.toStr d).map (fun sn =>
        sDupKw ++ fst.getD sStar ++ sSpace ++ snd.getD sStar ++ sEqSep ++
          sv ++ sSemi ++ sn))
  | .Sup fst snd, d =>
      (fst.toStr d).bind (fun sf => (snd.toStr d).map (fun ss =>
        sLBrace ++ sf ++ sSpace ++ ss ++ sRBrace))
  | .Era, _ => some sStar
  | .Num v, _ => some (Nat.repr v)
  | .Opx op fst snd, d =>
      (fst.toStr d).bind (fun sf => (snd.toStr d).map (fun ss =>
        sLPar ++ op.toStr ++ sSpace ++ sf ++ sSpace ++ ss ++ sRPar))

/-- Rust `Rule::to_string` (hvm_lang.rs lines 249-257): the registered name is
looked up first (`unwrap` modelled as `Option.bind`), then the patterns and
the body are rendered. -/
def Rule.toStr (r : Rule) (d : DefNames) : Option String :=
  (d.name r.def_id).bind (fun n => (r.body.toStr d).map (fun b =>
    sLPar ++ n ++ Pattern.toStrArgs r.pats ++ sRPar ++ sEqSep ++ b))

/-- Rust `Definition::to_string`: rules rendered and newline-joined. -/
def Definition.toStr (df : Definition) (d : DefNames) : Option String :=
  (df.rules.mapM (fun (r : Rule) => r.toStr d)).map (fun l => String.intercalate sNl l)

/-- Rust `Display for DefinitionBook`: definitions rendered against the book's
registry and blank-line-joined in stored order. -/
def DefinitionBook.toStr (bk : DefinitionBook) : Option String :=
  (bk.defs.mapM (fun (df : Definition) => df.toStr bk.def_names)).map
    (fun l => String.intercalate sNl2 l)

/-- C1: substitution on a `Lam` whose bound name equals the target leaves the
whole lambda (body included) unchanged; on a `Lam` with a different bound
name it recurses into the body; a `Var` named like the target is replaced by
the replacement term, any other `Var` is untouched.  The spec's examples:
substituting `x` into `λx. x` leaves it unchanged, and substituting `x` into
`λy. x` with replacement `5` yields `λy. 5`. -/
theorem subst_lam_var_spec :
    (∀ (n : Name) (b : Term) (x : Name) (r : Term),
      (Term.Lam (some n) b).subst x r =
        if n = x then Term.Lam (some n) b else Term.Lam (some n) (b.subst x r)) ∧
    (∀ (n x : Name) (r : Term),
      (Term.Var n).subst x r = if n = x then r else Term.Var n) ∧
    (Term.Lam (some nX) (Term.Var nX)).subst nX (Term.Num 5)
      = Term.Lam (some nX) (Term.Var nX) ∧
    (Term.Lam (some nY) (Term.Var nX)).subst nX (Term.Num 5)
      = Term.Lam (some nY) (Term.Num 5) := by
  refine ⟨fun n b x r => ?_, fun n x r => ?_, by decide, by decide⟩
  · by_cases h : n = x <;> simp [Term.subst, h]
  · by_cases h : n = x <;> simp [Term.subst, h]

/-- C2: substitution always recurses into the body of a `Chn` binder, even
when the channel's bound name equals the target, and a `Lnk` node is never
replaced; in particular substituting `x` into `λ$x. x` with replacement `5`
yields `λ$x. 5`. -/
theorem subst_chn_lnk_spec :
    (∀ (n : Name) (b : Term) (x : Name) (r : Term),
      (Term.Chn n b).subst x r = Term.Chn n (b.subst x r)) ∧
    (∀ (n x : Name) (r : Term), (Term.Lnk n).subst x r = Term.Lnk n) ∧
    (Term.Chn nX (Term.Var nX)).subst nX (Term.Num 5) = Term.Chn nX (Term.Num 5) := by
  exact ⟨fun n b x r => rfl, fun n x r => rfl, by decide⟩

/-- C3: substitution on a `Let` always substitutes into the bound value and
substitutes into the continuation exactly when the let's own bound name
differs from the target; on a `Dup` it always substitutes into the value and
substitutes into the continuation exactly when neither optional bound name
equals the target. -/
theorem subst_let_dup_spec :
    (∀ (n : Name) (v c : Term) (x : Name) (r : Term),
      (Term.Let n v c).subst x r =
        Term.Let n (v.subst x r) (if n = x then c else c.subst x r)) ∧
    (∀ (f s : Option Name) (v c : Term) (x : Name) (r : Term),
      (Term.Dup f s v c).subst x r =
        Term.Dup f s (v.subst x r)
          (if f ≠ some x ∧ s ≠ some x then c.subst x r else c)) ∧
    (Term.Dup (some nX) (some nY) (Term.Var nX) (Term.Var nX)).subst nX (Term.Num 5)
      = Term.Dup (some nX) (some nY) (Term.Num 5) (Term.Var nX) := by
  exact ⟨fun n v c x r => rfl, fun f s v c x r => rfl, by decide⟩

/-- C10: a `Lam` with no bound name never shadows: substitution always
recurses into its body, so a free occurrence of the target in the body is
still replaced. -/
theorem subst_lam_none_spec :
    (∀ (b : Term) (x : Name) (r : Term),
      (Term.Lam none b).subst x r = Term.Lam none (b.subst x r)) ∧
    (∀ (x : Name) (r : Term),
      (Term.Lam none (Term.Var x)).subst x r = Term.Lam none r) := by
  refine ⟨fun b x r => rfl, fun x r => ?_⟩
  simp [Term.subst]

/- Expected rendering strings for the concrete examples. -/

def sCallFAB : String := "((f a) b)"
def sConsHT : String := "((Cons h) t)"
def sMainRule : String := "(main) = 42"

/-- C6: `Term.call` folds the ordered argument list onto the function term
with left-associated `App` nodes: zero arguments yields the function term
unchanged, appending one more argument wraps one more `App` around the
chain, and `call f [a, b]` is `App (App f a) b`, which renders as
`((f a) b)`. -/
theorem call_fold_spec :
    (∀ f : Term, Term.call f [] = f) ∧
    (∀ (f : Term) (args : List Term) (a : Term),
      Term.call f (args ++ [a]) = Term.App (Term.call f args) a) ∧
    (∀ f a b : Term, Term.call f [a, b] = Term.App (Term.App f a) b) ∧
    (Term.call (Term.Var nF) [Term.Var nA, Term.Var nB]).toStr DefNames.new
      = some sCallFAB := by
  refine ⟨fun f => rfl, fun f args a => ?_, fun f a b => rfl, by decide⟩
  simp [Term.call, List.foldl_append]

/-- C7: pattern-to-term elaboration maps a Constructor pattern to the
application chain of a variable named after the constructor over the
recursively elaborated sub-patterns, a Variable pattern to a variable of
the same name (wildcard name `_` when unnamed), and a Numeral pattern to
the numeral with the same value; in particular `Ctr "Cons" [Var "h",
Var "t"]` elaborates to `((Cons h) t)`. -/
theorem ofPattern_spec :
    (∀ (nam : Name) (args : List Pattern),
      Term.ofPattern (.Ctr nam args)
        = Term.call (Term.Var nam) (args.map Term.ofPattern)) ∧
    (∀ nam : Name, Term.ofPattern (.Var (some nam)) = Term.Var nam) ∧
    (Term.ofPattern (.Var none) = Term.Var sUnder) ∧
    (∀ n : Nat, Term.ofPattern (.Num n) = Term.Num n) ∧
    (Term.ofPattern (.Ctr nCons [.Var (some nH), .Var (some nT)])
      = Term.App (Term.App (Term.Var nCons) (Term.Var nH)) (Term.Var nT)) ∧
    ((Term.ofPattern (.Ctr nCons [.Var (some nH), .Var (some nT)])).toStr
      DefNames.new = some sConsHT) := by
  refine ⟨fun nam args => ?_, fun nam => rfl, rfl, fun n => rfl, by decide, by decide⟩
  rw [Term.ofPattern, ofPatternList_eq_map]

/-- Registry holding only the pair (0, "main"), with the counter at 1. -/
def mainDefNames : DefNames := ⟨[(0, nMain)], 1⟩

/-- Book with the single definition id 0, one rule with no patterns and
body `42`. -/
def mainBook : DefinitionBook := ⟨mainDefNames, [⟨0, [⟨0, [], Term.Num 42⟩]⟩]⟩

/-- C9: a Rule renders as the definition's registered name followed by its
space-separated patterns inside parentheses, an equals sign, then the body;
a Definition renders as its rules newline-joined and a Book as its
definitions joined by blank lines in stored order; for a registry in which
`main` was inserted as id 0 and a book holding the definition with one
pattern-less rule with body `42`, the book renders exactly as
`(main) = 42`. -/
theorem render_book_spec :
    (∀ (r : Rule) (d : DefNames),
      r.toStr d = (d.name r.def_id).bind (fun n => (r.body.toStr d).map (fun b =>
        sLPar ++ n ++ Pattern.toStrArgs r.pats ++ sRPar ++ sEqSep ++ b))) ∧
    (∀ (df : Definition) (d : DefNames),
      df.toStr d = (df.rules.mapM (fun (r : Rule) => r.toStr d)).map
        (fun l => String.intercalate sNl l)) ∧
    (∀ bk : DefinitionBook,
      bk.toStr = (bk.defs.mapM (fun (df : Definition) => df.toStr bk.def_names)).map
        (fun l => String.intercalate sNl2 l)) ∧
    DefNames.new.insert nMain = some (0, mainDefNames) ∧
    mainBook.toStr = some sMainRule := by
  exact ⟨fun r d => rfl, fun df d => rfl, fun bk => rfl, by decide, by decide⟩

/- Helpers relating `Option.isSome` to the renderer's shape. -/

theorem isSome_map_eq {α β : Type} (o : Option α) (f : α → β) :
    (o.map f).isSome = o.isSome := by
  cases o <;> rfl

theorem isSome_bind_map {α β γ : Type} (o : Option α) (p : Option β)
    (g : α → β → γ) :
    (o.bind fun a => p.map (g a)).isSome = (o.isSome && p.isSome) := by
  cases o <;> cases p <;> rfl

theorem isSome_bind_bind_map {α β γ δ : Type} (o : Option α) (p : Option β)
    (q : Option γ) (g : α → β → γ → δ) :
    (o.bind fun a => p.bind fun b => q.map (g a b)).isSome
      = (o.isSome && (p.isSome && q.isSome)) := by
  cases o <;> cases p <;> cases q <;> rfl

theorem name_isSome (d : DefNames) (i : DefId) :
    (d.name i).isSome = d.contains_def_id i := by
  rw [Bool.eq_iff_iff]
  unfold DefNames.name DefNames.contains_def_id
  rw [isSome_map_eq]
  simp [List.find?_isSome, List.any_eq_true]

/-- Identifiers of all `Ref` nodes occurring in a term. -/
def Term.refIds : Term → List DefId
  | .Lam _ bod => bod.refIds
  | .Var _ => []
  | .Chn _ bod => bod.refIds
  | .Lnk _ => []
  | .Let _ val nxt => val.refIds ++ nxt.refIds
  | .Ref i => [i]
  | .App fn arg => fn.refIds ++ arg.refIds
  | .If cond then_ els_ => cond.refIds ++ (then_.refIds ++ els_.refIds)
  | .Dup _ _ val nxt => val.refIds ++ nxt.refIds
  | .Sup fst snd => fst.refIds ++ snd.refIds
  | .Era => []
  | .Num _ => []
  | .Opx _ fst snd => fst.refIds ++ snd.refIds

/-- Whether every `Ref` identifier in a term is registered. -/
def Term.refsDefined : Term → DefNames → Bool
  | .Lam _ bod, d => bod.refsDefined d
  | .Var _, _ => true
  | .Chn _ bod, d => bod.refsDefined d
  | .Lnk _, _ => true
  | .Let _ val nxt, d => val.refsDefined d && nxt.refsDefined d
  | .Ref i, d => d.contains_def_id i
  | .App fn arg, d => fn.refsDefined d && arg.refsDefined d
  | .If cond then_ els_, d =>
      cond.refsDefined d && (then_.refsDefined d && els_.refsDefined d)
  | .Dup _ _ val nxt, d => val.refsDefined d && nxt.refsDefined d
  | .Sup fst snd, d => fst.refsDefined d && snd.refsDefined d
  | .Era, _ => true
  | .Num _, _ => true
  | .Opx _ fst snd, d => fst.refsDefined d && snd.refsDefined d

theorem toStr_isSome_eq_refsDefined (t : Term) (d : DefNames) :
    (t.toStr d).isSome = t.refsDefined d := by
  induction t <;>
    simp [Term.toStr, Term.refsDefined, isSome_map_eq, isSome_bind_map,
      isSome_bind_bind_map, name_isSome, *]

theorem refsDefined_iff_refIds (t : Term) (d : DefNames) :
    t.refsDefined d = true ↔ ∀ i ∈ t.refIds, d.contains_def_id i = true := by
  induction t <;>
    simp [Term.refsDefined, Term.refIds, Bool.and_eq_true,
      List.forall_mem_append, or_imp, forall_and, *]

/-- C8: rendering a term never fails except when the term contains (hence
the renderer reaches) a `Ref` whose identifier is absent from the registry;
rendering a rule additionally requires the rule's own definition identifier
to be registered.  Mutation-freedom is inherent: the renderer is a pure
function of the term and registry. -/
theorem render_fail_iff_dangling_spec :
    (∀ (t : Term) (d : DefNames),
      (t.toStr d).isSome = true ↔ ∀ i ∈ t.refIds, d.contains_def_id i = true) ∧
    (∀ (r : Rule) (d : DefNames),
      (r.toStr d).isSome = true ↔
        (d.contains_def_id r.def_id = true ∧
          ∀ i ∈ r.body.refIds, d.contains_def_id i = true)) := by
  constructor
  · intro t d
    rw [toStr_isSome_eq_refsDefined]
    exact refsDefined_iff_refIds t d
  · intro r d
    unfold Rule.toStr
    rw [isSome_bind_map, Bool.and_eq_true, name_isSome,
      toStr_isSome_eq_refsDefined]
    exact and_congr Iff.rfl (refsDefined_iff_refIds _ _)

/-- C4: inserting a name that the registry already holds hits the `todo!`
panic (modelled as `none`) instead of returning a recoverable error or
overwriting the existing pair; in particular a successful insert makes any
later insert of the same name fail fatally. -/
theorem insert_duplicate_spec :
    (∀ (d : DefNames) (n : Name), d.contains_name n = true → d.insert n = none) ∧
    (∀ (d : DefNames) (n : Name) (i : DefId) (d2 : DefNames),
      d.insert n = some (i, d2) → d2.insert n = none) := by
  constructor
  · intro d n h
    unfold DefNames.insert
    simp [h]
  · intro d n i d2 h
    unfold DefNames.insert at h
    by_cases hc : (d.contains_def_id d.id_count || d.contains_name n) = true
    · simp [hc] at h
    · simp [hc] at h
      have hcn : d2.contains_name n = true := by
        rw [← h.2]
        simp [DefNames.contains_name, List.any_append]
      unfold DefNames.insert
      simp [hcn]

theorem insert_duplicate_spec_witness :
    (⟨[(0, nMain)], 1⟩ : DefNames).insert nMain = none :=
  insert_duplicate_spec.2 DefNames.new nMain 0 ⟨[(0, nMain)], 1⟩ (by decide)

/-- Identifier sequence `s, s+1, ..., s+n-1`, as allocated by the counter. -/
def idsFrom (s : Nat) : Nat → List DefId
  | 0 => []
  | n + 1 => s :: idsFrom (s + 1) n

/-- Folds `DefNames.insert` over a list of names, collecting the returned
identifiers in order; a panic in any step aborts the whole sequence. -/
def insertAll : DefNames → List Name → Option (List DefId × DefNames)
  | d, [] => some ([], d)
  | d, n :: ns =>
    match d.insert n with
    | none => none
    | some (i, d2) => (insertAll d2 ns).map (fun p => (i :: p.1, p.2))

theorem idsFrom_length : ∀ (n s : Nat), (idsFrom s n).length = n := by
  intro n
  induction n with
  | zero => intro s; rfl
  | succ m ih => intro s; simp [idsFrom, ih]

theorem idsFrom_get : ∀ (n s k : Nat) (h : k < (idsFrom s n).length),
    (idsFrom s n).get ⟨k, h⟩ = s + k := by
  intro n
  induction n with
  | zero => intro s k h; simp [idsFrom] at h
  | succ m ih =>
    intro s k h
    cases k with
    | zero => rfl
    | succ k2 =>
      have h2 : k2 < (idsFrom (s + 1) m).length := by
        have := h
        simp only [idsFrom, List.length_cons] at this
        omega
      calc (idsFrom s (m + 1)).get ⟨k2 + 1, h⟩
          = (idsFrom (s + 1) m).get ⟨k2, h2⟩ := rfl
        _ = (s + 1) + k2 := ih (s + 1) k2 h2
        _ = s + (k2 + 1) := by omega

theorem idsFrom_chain : ∀ (n s : Nat),
    List.Chain' (fun a b => a < b) (idsFrom s n) := by
  intro n
  induction n with
  | zero => intro s; simp [idsFrom]
  | succ m ih =>
    intro s
    cases m with
    | zero => simp [idsFrom]
    | succ m2 =>
      rw [show idsFrom s (m2 + 1 + 1) = s :: (s + 1) :: idsFrom (s + 1 + 1) m2
        from rfl]
      rw [List.chain'_cons]
      exact ⟨Nat.lt_succ_self s, ih (s + 1)⟩

theorem insertAll_go : ∀ (ns : List Name) (m : List (DefId × Name)) (k : Nat),
    (∀ p ∈ m, p.1 < k) → (∀ p ∈ m, p.2 ∉ ns) →
    ns.Pairwise (fun a b => a ≠ b) →
    insertAll ⟨m, k⟩ ns =
      some (idsFrom k ns.length,
        ⟨m ++ (idsFrom k ns.length).zip ns, k + ns.length⟩) := by
  intro ns
  induction ns with
  | nil => intro m k _ _ _; simp [insertAll, idsFrom]
  | cons n ns ih =>
    intro m k hlt hdisj hpw
    have h1 : DefNames.contains_def_id ⟨m, k⟩ k = false := by
      rw [DefNames.contains_def_id, List.any_eq_false]
      intro p hp
      simp only [beq_iff_eq]
      exact Nat.ne_of_lt (hlt p hp)
    have h2 : DefNames.contains_name ⟨m, k⟩ n = false := by
      rw [DefNames.contains_name, List.any_eq_false]
      intro p hp
      simp only [beq_iff_eq]
      exact fun he => (hdisj p hp) (he ▸ List.mem_cons_self n ns)
    have hins : DefNames.insert ⟨m, k⟩ n = some (k, ⟨m ++ [(k, n)], k + 1⟩) := by
      unfold DefNames.insert
      simp [h1, h2]
    have hlt2 : ∀ p ∈ m ++ [(k, n)], p.1 < k + 1 := by
      intro p hp
      rcases List.mem_append.1 hp with hm | hs
      · exact Nat.lt_trans (hlt p hm) (Nat.lt_succ_self k)
      · rw [List.mem_singleton.1 hs]
        exact Nat.lt_succ_self k
    have hdisj2 : ∀ p ∈ m ++ [(k, n)], p.2 ∉ ns := by
      intro p hp
      rcases List.mem_append.1 hp with hm | hs
      · exact fun hin => (hdisj p hm) (List.mem_cons_of_mem n hin)
      · rw [List.mem_singleton.1 hs]
        intro hin
        exact (List.pairwise_cons.1 hpw).1 _ hin rfl
    simp only [insertAll, hins]
    rw [ih (m ++ [(k, n)]) (k + 1) hlt2 hdisj2 hpw.of_cons]
    simp only [Option.map_some, List.length_cons]
    rw [show idsFrom k (ns.length + 1) = k :: idsFrom (k + 1) ns.length from rfl]
    rw [show (k :: idsFrom (k + 1) ns.length).zip (n :: ns)
        = (k, n) :: (idsFrom (k + 1) ns.length).zip ns from rfl]
    rw [List.append_assoc]
    rw [show [(k, n)] ++ (idsFrom (k + 1) ns.length).zip ns
        = (k, n) :: (idsFrom (k + 1) ns.length).zip ns from rfl]
    rw [show k + 1 + ns.length = k + (ns.length + 1) from by omega]
    rfl

theorem zip_find_name : ∀ (ns : List Name) (k j : Nat) (hj : j < ns.length),
    ns.Pairwise (fun a b => a ≠ b) →
    ((idsFrom k ns.length).zip ns).find? (fun p => p.2 == ns.get ⟨j, hj⟩)
      = some (k + j, ns.get ⟨j, hj⟩) := by
  intro ns
  induction ns with
  | nil => intro k j hj _; exact absurd hj (by simp)
  | cons n ns ih =>
    intro k j hj hpw
    rw [show ((idsFrom k (n :: ns).length).zip (n :: ns))
        = (k, n) :: (idsFrom (k + 1) ns.length).zip ns from rfl]
    cases j with
    | zero =>
      rw [List.find?_cons_of_pos]
      · rfl
      · simp
    | succ j2 =>
      have hj2 : j2 < ns.length := Nat.lt_of_succ_lt_succ hj
      have hget : (n :: ns).get ⟨j2 + 1, hj⟩ = ns.get ⟨j2, hj2⟩ := rfl
      have hne : ((fun p => p.2 == (n :: ns).get ⟨j2 + 1, hj⟩)
          ((k, n) : DefId × Name)) = false := by
        rw [hget]
        simp only [beq_eq_false_iff_ne]
        exact (List.pairwise_cons.1 hpw).1 _ (ns.get_mem _ _)
      rw [List.find?_cons_of_neg]
      · rw [hget]
        have := ih (k + 1) j2 hj2 hpw.of_cons
        simp only [Nat.add_succ, Nat.succ_add] at this ⊢
        exact this
      · simp only [hne]
        exact fun hcon => nomatch hcon

theorem zip_find_id : ∀ (ns : List Name) (k j : Nat) (hj : j < ns.length),
    ((idsFrom k ns.length).zip ns).find? (fun p => p.1 == k + j)
      = some (k + j, ns.get ⟨j, hj⟩) := by
  intro ns
  induction ns with
  | nil => intro k j hj; exact absurd hj (by simp)
  | cons n ns ih =>
    intro k j hj
    rw [show ((idsFrom k (n :: ns).length).zip (n :: ns))
        = (k, n) :: (idsFrom (k + 1) ns.length).zip ns from rfl]
    cases j with
    | zero =>
      rw [List.find?_cons_of_pos]
      · rfl
      · simp
    | succ j2 =>
      have hj2 : j2 < ns.length := Nat.lt_of_succ_lt_succ hj
      have hne : ((fun p => p.1 == k + (j2 + 1)) ((k, n) : DefId × Name))
          = false := by
        simp only [beq_eq_false_iff_ne]
        omega
      rw [List.find?_cons_of_neg]
      · have := ih (k + 1) j2 hj2
        simp only [Nat.add_succ, Nat.succ_add] at this ⊢
        exact this
      · simp only [hne]
        exact fun hcon => nomatch hcon

/-- C5: inserting any sequence of pairwise-distinct names into a fresh
registry succeeds, the identifiers returned by the successive inserts are
strictly increasing, and afterward the lookups round-trip: `def_id` of the
j-th name returns the identifier the j-th insert returned, and `name` of
that identifier returns the name. -/
theorem registry_roundtrip_spec (ns : List Name)
    (hpw : ns.Pairwise (fun a b => a ≠ b)) :
    ∃ (ids : List DefId) (d : DefNames),
      insertAll DefNames.new ns = some (ids, d) ∧
      List.Chain' (fun a b => a < b) ids ∧
      ∀ (j : Nat) (hj : j < ns.length), ∃ hj2 : j < ids.length,
        d.def_id (ns.get ⟨j, hj⟩) = some (ids.get ⟨j, hj2⟩) ∧
        d.name (ids.get ⟨j, hj2⟩) = some (ns.get ⟨j, hj⟩) := by
  have hgo := insertAll_go ns [] 0 (by simp) (by simp) hpw
  refine ⟨idsFrom 0 ns.length,
    ⟨(idsFrom 0 ns.length).zip ns, 0 + ns.length⟩, ?_, idsFrom_chain _ _, ?_⟩
  · simpa [DefNames.new] using hgo
  · intro j hj
    have hj2 : j < (idsFrom 0 ns.length).length := by
      rw [idsFrom_length]
      exact hj
    have hid : (idsFrom 0 ns.length).get ⟨j, hj2⟩ = 0 + j := idsFrom_get _ _ _ _
    refine ⟨hj2, ?_, ?_⟩
    · show (((idsFrom 0 ns.length).zip ns).find?
          (fun p => p.2 == ns.get ⟨j, hj⟩)).map (fun p => p.1) = _
      rw [zip_find_name ns 0 j hj hpw, hid]
      rfl
    · show (((idsFrom 0 ns.length).zip ns).find?
          (fun p => p.1 == (idsFrom 0 ns.length).get ⟨j, hj2⟩)).map
            (fun p => p.2) = _
      rw [hid, zip_find_id ns 0 j hj]
      rfl

theorem registry_roundtrip_spec_witness :
    ([nA, nB] : List Name).Pairwise (fun a b => a ≠ b) ∧
    (∃ (ids : List DefId) (d : DefNames),
      insertAll DefNames.new [nA, nB] = some (ids, d) ∧
      List.Chain' (fun a b => a < b) ids ∧
      ∀ (j : Nat) (hj : j < ([nA, nB] : List Name).length),
        ∃ hj2 : j < ids.length,
          d.def_id (([nA, nB] : List Name).get ⟨j, hj⟩)
            = some (ids.get ⟨j, hj2⟩) ∧
          d.name (ids.get ⟨j, hj2⟩)
            = some (([nA, nB] : List Name).get ⟨j, hj⟩)) :=
  ⟨by decide, registry_roundtrip_spec [nA, nB] (by decide)⟩
